import Mathlib

/-!
Verification of the BlitzMax command-documentation parser (`src/bmxdocs.ts`).

JavaScript strings are modelled as `List Char`; the in-memory command list
(`_commandsList`, a module-level mutable variable that may be `undefined`)
is passed explicitly as an `Option (List BmxCommand)`.  Fallible code paths
(the `TypeError` thrown by `pathSplits[1].toLowerCase()` when `url` contains
no `'/'`) are modelled with `Option`.
-/

set_option maxHeartbeats 1000000

/-- Whitespace as stripped by JavaScript `String.prototype.trim` (the
characters that occur in this code base). -/
def isWS (c : Char) : Bool := c = ' ' || c = '\t' || c = '\n' || c = '\r'

/-- Model of JS `s.trim()`: strip leading and trailing whitespace. -/
def trimChars (cs : List Char) : List Char :=
  ((cs.dropWhile isWS).reverse.dropWhile isWS).reverse

/-- Remove every whitespace character; used for "equal up to whitespace". -/
def stripWS (cs : List Char) : List Char := cs.filter (fun c => !isWS c)

/-- Model of JS `s.toLowerCase()` for the characters appearing here. -/
def toLowerStr (cs : List Char) : List Char := cs.map Char.toLower

/-- Model of JS `s.split(sep)` for a single-character separator. -/
def splitOnChar (sep : Char) (cs : List Char) : List (List Char) :=
  match cs with
  | [] => [[]]
  | c :: rest =>
    match splitOnChar sep rest with
    | [] => [[]]
    | s :: ss => if c = sep then [] :: s :: ss else (c :: s) :: ss

/-- Split at the first occurrence of the (non-empty) separator sequence
`sep`, returning the part before and the part after; `none` when `sep` does
not occur.  `(splitFirstSeq sep cs).isSome` models JS `cs.includes(sep)`. -/
def splitFirstSeq (sep : List Char) : List Char → Option (List Char × List Char)
  | [] => none
  | c :: rest =>
    if sep.isPrefixOf (c :: rest) then some ([], (c :: rest).drop sep.length)
    else
      match splitFirstSeq sep rest with
      | some (b, a) => some (c :: b, a)
      | none => none

/-- Element `[1]` of JS `cs.split(sep)` for a multi-character separator:
the text between the first occurrence of `sep` and the second (or the end).
Only meaningful when `sep` occurs in `cs`. -/
def jsSplitGet1 (sep : List Char) (cs : List Char) : List Char :=
  match splitFirstSeq sep cs with
  | none => []
  | some (_, after) =>
    match splitFirstSeq sep after with
    | some (b, _) => b
    | none => after

/-- JS array indexing `l[i]` in string-concatenation position: an
out-of-range access yields `undefined`, which JS `+` renders `"undefined"`. -/
def jsSeg (l : List (List Char)) (i : Nat) : List Char :=
  match l.get? i with
  | some s => s
  | none => "undefined".data

/-- `interface BmxCommandParam` -/
structure BmxCommandParam where
  name : List Char
  type : List Char
  default : List Char
deriving DecidableEq, Repr

/-- `enum parsePart` inside `parseCommandParams` -/
inductive ParsePart where
  | name
  | type
  | default
deriving DecidableEq, Repr

/-- The loop state of `parseCommandParams`: the params pushed so far (head =
the most recent, i.e. `cmd.params[cmd.params.length - 1]` that the JS code
mutates), the `createNewParam` flag, the `parse` mode and the `inString`
flag. -/
structure PPState where
  revAcc : List BmxCommandParam
  createNewParam : Bool
  parse : ParsePart
  inString : Bool
deriving DecidableEq, Repr

/-- `cmd.params.push( { name: '', type: 'Int', default: '' } )` -/
def freshParam : BmxCommandParam := ⟨[], "Int".data, []⟩

/-- State before the character loop of `parseCommandParams`. -/
def ppInit : PPState := ⟨[], true, ParsePart.name, false⟩

/-- The lazy `if ( createNewParam )` push at the top of the loop body. -/
def maybePush (st : PPState) : PPState :=
  if st.createNewParam then
    { st with createNewParam := false, revAcc := freshParam :: st.revAcc }
  else st

/-- The `switch ( parse )` part of the loop body, after the lazy push.
The `[]` branch is unreachable from `ppInit` (after `maybePush` the list is
never empty there). -/
def ppStepCore (st : PPState) (chr : Char) : PPState :=
  match st.revAcc with
  | [] => st
  | param :: rest =>
    match st.parse with
    | ParsePart.name =>
      if chr = ':' then
        { st with revAcc := { param with type := [] } :: rest, parse := ParsePart.type }
      else if chr = '=' then { st with parse := ParsePart.default }
      else if chr = ',' then { st with createNewParam := true, parse := ParsePart.name }
      else if chr = '%' then
        { st with revAcc := { param with type := "Int".data } :: rest, parse := ParsePart.type }
      else if chr = '#' then
        { st with revAcc := { param with type := "Float".data } :: rest, parse := ParsePart.type }
      else if chr = '!' then
        { st with revAcc := { param with type := "Double".data } :: rest, parse := ParsePart.type }
      else if chr = '$' then
        { st with revAcc := { param with type := "String".data } :: rest, parse := ParsePart.type }
      else if chr = ' ' then st
      else { st with revAcc := { param with name := param.name ++ [chr] } :: rest }
    | ParsePart.type =>
      if chr = ',' then { st with createNewParam := true, parse := ParsePart.name }
      else if chr = '=' then { st with parse := ParsePart.default }
      else if chr = ' ' then st
      else { st with revAcc := { param with type := param.type ++ [chr] } :: rest }
    | ParsePart.default =>
      let st' :=
        if st.inString then
          { st with revAcc := { param with default := param.default ++ [chr] } :: rest }
        else if chr = ',' then { st with createNewParam := true, parse := ParsePart.name }
        else if chr = ' ' then st
        else { st with revAcc := { param with default := param.default ++ [chr] } :: rest }
      if chr = '"' then { st' with inString := !st'.inString } else st'

/-- One iteration of the character loop of `parseCommandParams`. -/
def ppStep (st : PPState) (chr : Char) : PPState := ppStepCore (maybePush st) chr

/-- Run the character loop from a given state. -/
def runFrom (st : PPState) (cs : List Char) : PPState := cs.foldl ppStep st

/-- The parameter list produced by the character loop on (already trimmed)
raw text. -/
def parseCommandParamsRaw (raw : List Char) : List BmxCommandParam :=
  (runFrom ppInit raw).revAcc.reverse

/-- `paramsPretty` rendering of one param:
`name + ':' + type` and `' = ' + default` when the default is non-empty. -/
def prettyParam (p : BmxCommandParam) : List Char :=
  p.name ++ ':' :: p.type ++ (if p.default.isEmpty then [] else ' ' :: '=' :: ' ' :: p.default)

/-- `paramsPretty` rendering of the whole list, joined with `", "`. -/
def prettyOf : List BmxCommandParam → List Char
  | [] => []
  | [p] => prettyParam p
  | p :: q :: rest => prettyParam p ++ ',' :: ' ' :: prettyOf (q :: rest)

/-- The parameter sub-parser viewed as a function from the raw text between
the parentheses to the resulting `params` value: `none` models the early
returns of `parseCommandParams` that leave `cmd.params` undefined. -/
def subParse (paramsRaw : List Char) : Option (List BmxCommandParam) :=
  if paramsRaw.isEmpty then none
  else if (trimChars paramsRaw).isEmpty then none
  else some (parseCommandParamsRaw (trimChars paramsRaw))

/-- `interface BmxCommand` (presentation-only fields `shortMarkdownString`
and `insertText` are omitted; `markdownString` is modelled by its truthiness,
which is all `getCommand` inspects). -/
structure BmxCommand where
  realName : List Char
  searchName : List Char
  description : Option (List Char) := none
  markdownString : Bool := false
  isFunction : Bool
  returns : Option (List Char) := none
  params : Option (List BmxCommandParam) := none
  paramsRaw : Option (List Char) := none
  paramsPretty : Option (List Char) := none
  url : Option (List Char) := none
  urlLocation : Option (List Char) := none
  module : Option (List Char) := none
deriving DecidableEq, Repr

/-- `function parseCommandParams( cmd: BmxCommand )`. -/
def parseCommandParams (cmd : BmxCommand) : BmxCommand :=
  match cmd.paramsRaw with
  | none => cmd
  | some raw =>
    if raw.isEmpty then cmd
    else
      let t := trimChars raw
      if t.isEmpty then { cmd with paramsRaw := some t }
      else
        let ps := parseCommandParamsRaw t
        { cmd with paramsRaw := some t, params := some ps, paramsPretty := some (prettyOf ps) }

/-- The `' : '` separator used for descriptions. -/
def descSep : List Char := " : ".data

/-- The description step: if `leftSide` includes `' : '`, take
`leftSide.split( ' : ' )[1]` as description and slice it plus the 3
separator characters off the tail. -/
def stripDescription (ls : List Char) : List Char × Option (List Char) :=
  match splitFirstSeq descSep ls with
  | none => (ls, none)
  | some _ =>
    let d := jsSplitGet1 descSep ls
    (ls.take (ls.length - (d.length + 3)), some d)

/-- The parameter-list step: if `leftSide` includes `'('`, take everything
after the first `'('` minus the final character as `paramsRaw`, and slice
`paramsRaw.length + 2` characters off the tail. -/
def extractParams (ls : List Char) : List Char × Option (List Char) :=
  if ls.contains '(' then
    let raw := (ls.drop (ls.findIdx (· = '(') + 1)).dropLast
    (ls.take (ls.length - (raw.length + 2)), some raw)
  else (ls, none)

/-- The return-type step: if what remains of `leftSide` includes `':'`,
everything after the first `':'` is `returns`, sliced off the tail with the
separator. -/
def stripReturns (ls : List Char) : List Char × Option (List Char) :=
  if ls.contains ':' then
    let r := ls.drop (ls.findIdx (· = ':') + 1)
    (ls.take (ls.length - (r.length + 1)), some r)
  else (ls, none)

/-- URL/anchor step on `rightSide`: everything from `'#'` onward is
`urlLocation`, the rest is `url`. -/
def parseUrl (rightSide : List Char) : List Char × Option (List Char) :=
  if rightSide.contains '#' then
    let loc := rightSide.drop (rightSide.findIdx (· = '#'))
    (rightSide.take (rightSide.length - loc.length), some loc)
  else (rightSide, none)

/-- Module inference from the url path segments.  Only called when
`pathSplits[1]` exists; segments 2-5 fall back to the JS string
`"undefined"` produced by concatenating an out-of-range element. -/
def computeModule (url : List Char) : Option (List Char) :=
  let pathSplits := splitOnChar '/' url
  if toLowerStr (jsSeg pathSplits 1) = "docs".data then
    some (jsSeg pathSplits 4 ++ '/' :: jsSeg pathSplits 5)
  else if toLowerStr (jsSeg pathSplits 1) = "mod".data then
    some (jsSeg pathSplits 2 ++ '/' :: jsSeg pathSplits 3)
  else none

/-- The residue of the first `'|'` segment after the three stripping steps;
this is what line 247 assigns to `realName`. -/
def residualName (line : List Char) : List Char :=
  (stripReturns (extractParams (stripDescription ((splitOnChar '|' line).headD [])).1).1).1

/-- The per-line body of `addCommand`.  Returns `none` when the JS code
throws: `command.url` is truthy but contains no `'/'`, so `pathSplits[1]`
is `undefined` and `.toLowerCase()` raises a `TypeError`. -/
def parseLine (line : List Char) : Option BmxCommand :=
  let lineSplit := splitOnChar '|' line
  let leftSide0 := lineSplit.headD []
  let rightSide := lineSplit.getLastD []
  let u := parseUrl rightSide
  if !u.1.isEmpty && (splitOnChar '/' u.1).length ≤ 1 then none
  else
    let module := if u.1.isEmpty then none else computeModule u.1
    let sd := stripDescription leftSide0
    let cmd0 : BmxCommand :=
      { realName := "No Name".data, searchName := "no name".data, isFunction := false,
        returns := none, url := some u.1, urlLocation := u.2, module := module,
        description := sd.2 }
    let ep := extractParams sd.1
    let cmd1 :=
      match ep.2 with
      | some raw => parseCommandParams { cmd0 with paramsRaw := some raw, isFunction := true }
      | none => cmd0
    let sr := stripReturns ep.1
    let cmd2 := { cmd1 with returns := sr.2 }
    let cmd3 := { cmd2 with realName := sr.1, searchName := toLowerStr sr.1 }
    some { cmd3 with
      markdownString :=
        (match cmd3.description with | some d => !d.isEmpty | none => false) ||
        (match cmd3.paramsPretty with | some p => !p.isEmpty | none => false) }

/-- `function addCommand( data )`: process the lines in order, skipping
falsy (empty) lines; a line on which the body throws aborts the whole
`forEach`, keeping only the commands already pushed. -/
def addCommandAux : List (List Char) → List BmxCommand → List BmxCommand
  | [], acc => acc
  | l :: rest, acc =>
    if l.isEmpty then addCommandAux rest acc
    else
      match parseLine l with
      | some cmd => addCommandAux rest (acc ++ [cmd])
      | none => acc

/-- `addCommand` applied to the whole file contents (split on EOL). -/
def addCommandData (data : List Char) : List BmxCommand :=
  addCommandAux (splitOnChar '\n' data) []

/-- The JS return expression `_commandsList ? _commandsList.length >= 0 : false`. -/
def jsLenGE0 : Option (List BmxCommand) → Bool
  | some l => decide (0 ≤ l.length)
  | none => false

/-- `function cacheCommands`: `fileData = none` models `fs.readFileSync`
throwing (file unreadable), in which case `_commandsList` is left as it
was; otherwise it is reset to `[]` and filled by `addCommand`. -/
def cacheCommands (st : Option (List BmxCommand)) (fileData : Option (List Char)) :
    Option (List BmxCommand) × Bool :=
  match fileData with
  | none => (st, jsLenGE0 st)
  | some data =>
    let l := addCommandData data
    (some l, jsLenGE0 (some l))

/-- `function cacheCommandsIfEmpty`. -/
def cacheCommandsIfEmpty (st : Option (List BmxCommand)) (fileData : Option (List Char)) :
    Option (List BmxCommand) × Bool :=
  let st' :=
    match st with
    | none => (cacheCommands none fileData).1
    | some l => if l.length ≤ 0 then (cacheCommands (some l) fileData).1 else some l
  (st', jsLenGE0 st')

/-- `interface GetCommandFilter` (a missing flag is falsy in JS, modelled
by `false`). -/
structure GetCommandFilter where
  hasDescription : Bool := false
  hasMarkdown : Bool := false
  hasParameters : Bool := false
deriving DecidableEq, Repr

/-- Truthiness of an optional JS string (`undefined` and `""` are falsy). -/
def optTruthy : Option (List Char) → Bool
  | some s => !s.isEmpty
  | none => false

/-- The `filter` checks inside the `getCommand` loop (the three `continue`s). -/
def passesFilter (f : GetCommandFilter) (cmd : BmxCommand) : Bool :=
  (!f.hasDescription || optTruthy cmd.description) &&
  (!f.hasMarkdown || cmd.markdownString) &&
  (!f.hasParameters || (match cmd.params with | some ps => decide (0 < ps.length) | none => false))

/-- `function getCommand( command?, filter? )` over an explicit commands
list. -/
def getCommand (command : Option (List Char)) (filter : Option GetCommandFilter)
    (commandsList : List BmxCommand) : List BmxCommand :=
  let command := command.map (fun c => if c.isEmpty then c else toLowerStr c)
  commandsList.filter (fun cmd =>
    (match command with
     | none => true
     | some c => c.isEmpty || cmd.searchName = c) &&
    (match filter with
     | none => true
     | some f => passesFilter f cmd))

/-! Concrete inputs used by the claims. -/

/-- The `Sin` catalog line from the spec (pipes written without padding so
that the url splits into `["", "mod", "math.mod", "math.bmx", "Sin"]` as the
claim states). -/
def sinLine : List Char :=
  "Sin#(angle#) : Returns sine of angle|...|/mod/math.mod/math.bmx/Sin".data

/-- The command record `parseLine` produces for `sinLine`. -/
def sinCmd : BmxCommand :=
  { realName := "Sin#".data, searchName := "sin#".data,
    description := some "Returns sine of angle".data,
    markdownString := true, isFunction := true, returns := none,
    params := some [⟨"angle".data, "Float".data, []⟩],
    paramsRaw := some "angle#".data,
    paramsPretty := some "angle:Float".data,
    url := some "/mod/math.mod/math.bmx/Sin".data,
    urlLocation := none,
    module := some "math.mod/math.bmx".data }

/-- The index built from a catalog consisting of the `Sin` line only. -/
def sinIndex : List BmxCommand := addCommandData sinLine



/-! ## C8: validity of parser-produced parameters -/

/-- Characters that are never appended to a parameter name (each triggers a
transition or is skipped in `Name` mode). -/
def nameBreak (c : Char) : Bool :=
  c = ':' || c = '=' || c = ',' || c = '%' || c = '#' || c = '!' || c = '$' || c = ' '

/-- A name the parser can produce: free of all `Name`-mode special characters. -/
def goodName (s : List Char) : Bool := s.all fun c => !nameBreak c

/-- Characters that may sit inside a produced type. -/
def goodTypeChar (c : Char) : Bool := !(c = ',') && !(c = '=') && !(c = ' ')

/-- A type the parser can produce. -/
def goodType (s : List Char) : Bool := s.all goodTypeChar

/-- The `if ( chr == '"' ) inString = !inString` toggle. -/
def quoteFlip (q : Bool) (c : Char) : Bool := if c = '"' then !q else q

/-- The `inString` flag after scanning `s` starting from `q`. -/
def parAfter (q : Bool) (s : List Char) : Bool := s.foldl quoteFlip q

/-- A default value the parser can produce when scanned from quote-state `q`:
any `','` or `' '` occurs only inside a quoted string. -/
def goodDefFrom : Bool → List Char → Bool
  | _, [] => true
  | q, c :: cs => (q || (!(c = ',') && !(c = ' '))) && goodDefFrom (quoteFlip q c) cs

/-- A parameter as the sub-parser can produce it. -/
def validParam (p : BmxCommandParam) : Bool :=
  goodName p.name && goodType p.type && goodDefFrom false p.default

/-- A parameter whose default leaves the quote state balanced (true of every
parameter that was terminated by a splitting comma). -/
def closedParam (p : BmxCommandParam) : Bool := !parAfter false p.default

/-- Whitespace-normalised view of a parameter. -/
def normParam (p : BmxCommandParam) : BmxCommandParam :=
  ⟨stripWS p.name, stripWS p.type, stripWS p.default⟩

/-- Invariant of the `parseCommandParams` loop state. -/
structure PPInv (st : PPState) : Prop where
  validAll : ∀ p ∈ st.revAcc, validParam p = true
  closedTail : ∀ p ∈ st.revAcc.tail, closedParam p = true
  newState : st.createNewParam = true →
    st.parse = ParsePart.name ∧ st.inString = false ∧ ∀ p ∈ st.revAcc, closedParam p = true
  strFalse : st.parse ≠ ParsePart.default → st.inString = false
  headDef : st.createNewParam = false → st.parse ≠ ParsePart.default →
    ∀ p rest, st.revAcc = p :: rest → p.default = []
  headPar : st.createNewParam = false → st.parse = ParsePart.default →
    ∀ p rest, st.revAcc = p :: rest → parAfter false p.default = st.inString
  neNew : st.revAcc = [] → st.createNewParam = true

/-- Strip trailing whitespace (the second half of JS `trim`). -/
def dropTrailWS (l : List Char) : List Char := (l.reverse.dropWhile isWS).reverse

/-- First parameter with leading whitespace stripped from its name (the
effect of the leading half of `trim` on the rendered string). -/
def dropLeadName (p : BmxCommandParam) : BmxCommandParam :=
  { p with name := p.name.dropWhile isWS }

/-- The command record `parseLine` produces for `Foo( )|/a/b` (whitespace-only
parameter list). -/
def fooCmd : BmxCommand :=
  { realName := "Foo".data, searchName := "foo".data, isFunction := true,
    paramsRaw := some [], url := some "/a/b".data }

/-! ## Helper lemmas -/

theorem parseLine_fields (line : List Char) (cmd : BmxCommand)
    (h : parseLine line = some cmd) :
    cmd.realName = residualName line ∧ cmd.searchName = toLowerStr (residualName line) := by
  simp only [parseLine] at h
  split at h
  · exact absurd h (by simp)
  · rw [Option.some.injEq] at h
    subst h
    constructor <;> rfl

theorem findIdx_append_first (p : Char → Bool) (pre rest : List Char) (a : Char)
    (hpre : ∀ c ∈ pre, p c = false) (ha : p a = true) :
    List.findIdx p (pre ++ a :: rest) = pre.length := by
  induction pre with
  | nil => simp [List.findIdx_cons, ha]
  | cons x xs ih =>
    have hx := hpre x (by simp)
    simp [List.findIdx_cons, hx, ih (fun c hc => hpre c (by simp [hc]))]

/-! ## Claim theorems -/

/-- C1: the claim that no line can abort the batch is wrong: a line whose
last pipe segment is non-empty with no `'/'` makes `pathSplits[1]`
`undefined`, the `.toLowerCase()` call throws, and the whole batch dies:
here the valid second line is never indexed and even the first line yields
no record. -/
theorem addCommand_batch_aborts_on_slashless_url :
    addCommandData "Foo|bar\nGood|/mod/a/b/c".data = [] ∧
      parseLine "Foo|bar".data = none ∧
      (parseLine "Good|/mod/a/b/c".data).isSome = true := by
  refine ⟨by decide, by decide, by decide⟩

/-- C2 counterexample: for the `Sin` line the module is
`pathSplits[2] + '/' + pathSplits[3] = "math.mod/math.bmx"`, not the claimed
`"mod/math.mod"`. -/
theorem sin_line_module_counterexample :
    parseLine sinLine = some sinCmd ∧ sinCmd.module ≠ some "mod/math.mod".data := by
  refine ⟨by decide, by decide⟩

/-- C2 (amended): the `Sin` line gives `isFunction = true`, no return type,
description `"Returns sine of angle"`, and module `"math.mod/math.bmx"`. -/
theorem sin_line_parse :
    parseLine sinLine = some sinCmd ∧ sinCmd.isFunction = true ∧ sinCmd.returns = none ∧
      sinCmd.description = some "Returns sine of angle".data ∧
      sinCmd.module = some "math.mod/math.bmx".data := by
  refine ⟨by decide, rfl, rfl, rfl, rfl⟩

/-- C3: on a readable catalog with zero valid lines `cacheCommandsIfEmpty`
returns `true` (the `>= 0` comparison is satisfied by the empty list), not
`false` as the claim and the spec state; the name-less `find()` part does
return the empty sequence. -/
theorem cacheCommandsIfEmpty_empty_catalog_returns_true :
    cacheCommandsIfEmpty none (some []) = (some [], true) ∧ getCommand none none [] = [] := by
  refine ⟨by decide, by decide⟩

/-- C4 counterexample: the `Sin` record's `searchName` is `"sin#"` (the
sigil is not stripped), so `find("sin")` returns no record at all, not
exactly one. -/
theorem find_sin_counterexample :
    sinIndex = [sinCmd] ∧ getCommand (some "sin".data) none sinIndex = [] := by
  refine ⟨by decide, by decide⟩

/-- C4 (amended): after indexing the `Sin` line, `find("sin#")` returns
exactly the one record (whose `searchName` is `"sin#"`), the
`hasParameters` filter keeps it, and an all-false filter never excludes
anything. -/
theorem find_sin_hash :
    getCommand (some "sin#".data) none sinIndex = [sinCmd] ∧
      sinCmd.searchName = "sin#".data ∧
      getCommand (some "sin#".data) (some ⟨false, false, true⟩) sinIndex = [sinCmd] ∧
      ∀ (cs : List BmxCommand) (n : Option (List Char)),
        getCommand n (some ⟨false, false, false⟩) cs = getCommand n none cs := by
  refine ⟨by decide, rfl, by decide, ?_⟩
  intro cs n
  simp [getCommand, passesFilter]

/-- C4 witness. -/
theorem find_sin_hash_witness :
    getCommand none (some ⟨false, false, false⟩) [sinCmd] = getCommand none none [sinCmd] :=
  find_sin_hash.2.2.2 [sinCmd] none

/-- C5: every record produced by the line parser has
`searchName = realName.toLowerCase()`. -/
theorem searchName_eq_lower_realName (line : List Char) (cmd : BmxCommand)
    (h : parseLine line = some cmd) : cmd.searchName = toLowerStr cmd.realName := by
  obtain ⟨h1, h2⟩ := parseLine_fields line cmd h
  rw [h1, h2]

/-- C5 witness. -/
theorem searchName_eq_lower_realName_witness :
    sinCmd.searchName = toLowerStr sinCmd.realName :=
  searchName_eq_lower_realName sinLine sinCmd (by decide)

/-- C6 counterexample: the line `|/x/y` produces a record whose `realName`
and `searchName` are both empty: the `"No Name"` fallback is overwritten
unconditionally, so the claimed non-emptiness fails. -/
theorem empty_realName_counterexample :
    (parseLine "|/x/y".data).map BmxCommand.realName = some [] ∧
      (parseLine "|/x/y".data).map BmxCommand.searchName = some [] := by
  refine ⟨by decide, by decide⟩

/-- C6 (amended): `realName` is exactly the residue of the first pipe
segment after the three stripping steps (and may be empty), and
`searchName` is its lowercase; the initial `"No Name"`/`"no name"`
fallbacks never survive to a produced record. -/
theorem realName_is_residual (line : List Char) (cmd : BmxCommand)
    (h : parseLine line = some cmd) :
    cmd.realName = residualName line ∧ cmd.searchName = toLowerStr (residualName line) :=
  parseLine_fields line cmd h

/-- C6 witness. -/
theorem realName_is_residual_witness :
    sinCmd.realName = residualName sinLine ∧
      sinCmd.searchName = toLowerStr (residualName sinLine) :=
  realName_is_residual sinLine sinCmd (by decide)

/-- C7: the parameter sub-parser on `a:Int, b:String = "hi, there"` yields
exactly the two params, the quoted comma not splitting the second one. -/
theorem subparse_quoted_comma :
    subParse "a:Int, b:String = \"hi, there\"".data =
      some [⟨"a".data, "Int".data, []⟩,
            ⟨"b".data, "String".data, "\"hi, there\"".data⟩] := by
  decide

/-- C9 counterexample: for left side `Foo(a):Int` (text after the final
`')'`), the code stores `paramsRaw = "a):In"` (drop the last character,
whatever it is), not the claimed `"a"` (up to the final `')'`). -/
theorem paramsRaw_trailing_text_counterexample :
    (parseLine "Foo(a):Int|/m/x/y".data).map BmxCommand.paramsRaw =
        some (some "a):In".data) ∧
      "a):In".data ≠ "a".data := by
  refine ⟨by decide, by decide⟩

/-- C9 (amended): the extraction step takes everything after the first `'('`
minus the final character of the left side; when the left side ends with
`')'` this is the substring strictly between the first `'('` and that final
`')'`, and that plus the two parentheses is stripped from the tail, leaving
the prefix before the `'('`. -/
theorem extractParams_of_wellformed (ls pre raw : List Char) (hpre : '(' ∉ pre)
    (hls : ls = pre ++ '(' :: (raw ++ [')'])) :
    extractParams ls = (pre, some raw) := by
  subst hls
  have hc : (pre ++ '(' :: (raw ++ [')'])).contains '(' = true := by
    simp [List.contains]
  have hidx : List.findIdx (fun c => c = '(') (pre ++ '(' :: (raw ++ [')'])) = pre.length := by
    refine findIdx_append_first _ pre (raw ++ [')']) '(' ?_ ?_
    · intro c hcm
      simp only [decide_eq_false_iff_not]
      intro h
      exact hpre (h ▸ hcm)
    · simp
  have hsplit : pre ++ '(' :: (raw ++ [')']) = (pre ++ ['(']) ++ (raw ++ [')']) := by simp
  have hdrop : (pre ++ '(' :: (raw ++ [')'])).drop (pre.length + 1) = raw ++ [')'] := by
    rw [hsplit]
    have h1 : (pre ++ ['(']).length = pre.length + 1 := by simp
    rw [← h1, List.drop_left]
  have hlen : (pre ++ '(' :: (raw ++ [')'])).length - (raw.length + 2) = pre.length := by
    simp only [List.length_append, List.length_cons, List.length_nil]
    omega
  have htake : (pre ++ '(' :: (raw ++ [')'])).take pre.length = pre :=
    List.take_left pre ('(' :: (raw ++ [')']))
  simp only [extractParams]
  rw [if_pos hc]
  simp only [hidx, hdrop, List.dropLast_concat, hlen, htake]

/-- C9 witness. -/
theorem extractParams_of_wellformed_witness :
    extractParams "Foo(a)".data = ("Foo".data, some "a".data) :=
  extractParams_of_wellformed "Foo(a)".data "Foo".data "a".data (by decide) (by decide)

/-- C10: a line whose extracted parameter text trims to nothing yields
`isFunction = true` with `params` and `paramsPretty` left absent, and the
`hasParameters` filter therefore always excludes the record. -/
theorem empty_param_list_params_absent (line : List Char) (cmd : BmxCommand) (raw : List Char)
    (h : parseLine line = some cmd)
    (hep : (extractParams (stripDescription ((splitOnChar '|' line).headD [])).1).2 = some raw)
    (ht : trimChars raw = []) :
    cmd.isFunction = true ∧ cmd.params = none ∧ cmd.paramsPretty = none ∧
      ∀ (cs : List BmxCommand) (n : Option (List Char)),
        cmd ∉ getCommand n (some ⟨false, false, true⟩) cs := by
  simp only [parseLine] at h
  split at h
  · exact absurd h (by simp)
  · rw [hep] at h
    rw [Option.some.injEq] at h
    have hfun : cmd.isFunction = true := by
      rw [← h]
      simp only [parseCommandParams]
      split
      · rfl
      · split
        · rfl
        · rfl
    have hparams : cmd.params = none := by
      rw [← h]
      simp only [parseCommandParams]
      split
      · rfl
      · split
        · rfl
        · rename_i hne
          exact absurd (by rw [ht]; rfl) hne
    have hpp : cmd.paramsPretty = none := by
      rw [← h]
      simp only [parseCommandParams]
      split
      · rfl
      · split
        · rfl
        · rename_i hne
          exact absurd (by rw [ht]; rfl) hne
    refine ⟨hfun, hparams, hpp, ?_⟩
    intro cs n hmem
    simp only [getCommand] at hmem
    have h2 := (List.mem_filter.mp hmem).2
    simp only [passesFilter, hparams] at h2
    simp at h2

/-- C10 witness. -/
theorem empty_param_list_params_absent_witness :
    fooCmd.isFunction = true ∧ fooCmd.params = none ∧ fooCmd.paramsPretty = none ∧
      fooCmd ∉ getCommand none (some ⟨false, false, true⟩) [fooCmd] := by
  have h := empty_param_list_params_absent "Foo( )|/a/b".data fooCmd " ".data
    (by decide) (by decide) (by decide)
  exact ⟨h.1, h.2.1, h.2.2.1, h.2.2.2 [fooCmd] none⟩
theorem ppInit_inv : PPInv ppInit := by
  constructor <;> simp [ppInit]

theorem parAfter_append (q : Bool) (s t : List Char) :
    parAfter q (s ++ t) = parAfter (parAfter q s) t := by
  simp [parAfter, List.foldl_append]

theorem parAfter_one (q : Bool) (c : Char) : parAfter q [c] = quoteFlip q c := rfl

theorem goodDefFrom_snoc (q : Bool) (s : List Char) (c : Char) :
    goodDefFrom q (s ++ [c]) =
      (goodDefFrom q s && (parAfter q s || (!(c = ',') && !(c = ' ')))) := by
  induction s generalizing q with
  | nil => simp [goodDefFrom, parAfter]
  | cons x xs ih =>
    have h1 : goodDefFrom q ((x :: xs) ++ [c]) =
        ((q || (!(x = ',') && !(x = ' '))) && goodDefFrom (quoteFlip q x) (xs ++ [c])) := rfl
    have h2 : parAfter q (x :: xs) = parAfter (quoteFlip q x) xs := rfl
    rw [h1, ih, h2, ← Bool.and_assoc]
    rfl

theorem goodDefFrom_append_left (q : Bool) (s t : List Char)
    (h : goodDefFrom q (s ++ t) = true) : goodDefFrom q s = true := by
  induction s generalizing q with
  | nil => rfl
  | cons x xs ih =>
    simp only [List.cons_append, goodDefFrom, Bool.and_eq_true] at h ⊢
    exact ⟨h.1, ih _ h.2⟩

theorem validParam_fresh : validParam freshParam = true := by decide

theorem closedParam_fresh : closedParam freshParam = true := by decide

theorem maybePush_createNew (st : PPState) : (maybePush st).createNewParam = false := by
  rcases st with ⟨acc, cn, mode, q⟩
  cases cn <;> simp [maybePush]

theorem maybePush_inv (st : PPState) (h : PPInv st) : PPInv (maybePush st) := by
  rcases st with ⟨acc, cn, mode, q⟩
  cases cn
  · simpa [maybePush] using h
  · obtain ⟨hmode, hq, hclosed⟩ := h.newState rfl
    simp only at hmode hq
    subst hmode
    subst hq
    have heq : maybePush ⟨acc, true, ParsePart.name, false⟩ =
        ⟨freshParam :: acc, false, ParsePart.name, false⟩ := rfl
    rw [heq]
    refine ⟨?_, ?_, ?_, ?_, ?_, ?_, ?_⟩
    · intro p hp
      rcases List.mem_cons.mp hp with rfl | hp
      · exact validParam_fresh
      · exact h.validAll p hp
    · intro p hp
      exact hclosed p hp
    · intro hfalse
      simp at hfalse
    · intro _
      rfl
    · intro _ _ p rest hpr
      injection hpr with h1 _
      subst h1
      rfl
    · intro _ hfalse
      simp at hfalse
    · intro hfalse
      simp at hfalse

/-- Build the invariant for a head-modified state in `Name`/`Type` mode. -/
theorem PPInv.mkHead (p' : BmxCommandParam) (rest : List BmxCommandParam) (mode : ParsePart)
    (hmode : mode ≠ ParsePart.default) (hv : validParam p' = true) (hd : p'.default = [])
    (hvrest : ∀ x ∈ rest, validParam x = true) (hct : ∀ x ∈ rest, closedParam x = true) :
    PPInv ⟨p' :: rest, false, mode, false⟩ := by
  refine ⟨?_, ?_, ?_, ?_, ?_, ?_, ?_⟩
  · intro x hx
    rcases List.mem_cons.mp hx with rfl | hx
    · exact hv
    · exact hvrest x hx
  · intro x hx
    exact hct x hx
  · intro hfalse
    simp at hfalse
  · intro _
    rfl
  · intro _ _ x xs hxr
    injection hxr with h1 _
    subst h1
    exact hd
  · intro _ hpd
    exact absurd hpd hmode
  · intro hfalse
    simp at hfalse

/-- Build the invariant for a just-split state (`createNewParam = true`). -/
theorem PPInv.mkComma (p : BmxCommandParam) (rest : List BmxCommandParam)
    (hv : validParam p = true) (hcp : closedParam p = true)
    (hvrest : ∀ x ∈ rest, validParam x = true) (hct : ∀ x ∈ rest, closedParam x = true) :
    PPInv ⟨p :: rest, true, ParsePart.name, false⟩ := by
  refine ⟨?_, ?_, ?_, ?_, ?_, ?_, ?_⟩
  · intro x hx
    rcases List.mem_cons.mp hx with rfl | hx
    · exact hv
    · exact hvrest x hx
  · intro x hx
    exact hct x hx
  · intro _
    refine ⟨rfl, rfl, ?_⟩
    intro x hx
    rcases List.mem_cons.mp hx with rfl | hx
    · exact hcp
    · exact hct x hx
  · intro _
    rfl
  · intro hfalse
    simp at hfalse
  · intro hfalse
    simp at hfalse
  · intro _
    rfl

/-- Build the invariant for a `Default`-mode state. -/
theorem PPInv.mkDef (p' : BmxCommandParam) (rest : List BmxCommandParam) (q' : Bool)
    (hv : validParam p' = true) (hpar : parAfter false p'.default = q')
    (hvrest : ∀ x ∈ rest, validParam x = true) (hct : ∀ x ∈ rest, closedParam x = true) :
    PPInv ⟨p' :: rest, false, ParsePart.default, q'⟩ := by
  refine ⟨?_, ?_, ?_, ?_, ?_, ?_, ?_⟩
  · intro x hx
    rcases List.mem_cons.mp hx with rfl | hx
    · exact hv
    · exact hvrest x hx
  · intro x hx
    exact hct x hx
  · intro hfalse
    simp at hfalse
  · intro hne
    exact absurd rfl hne
  · intro _ hne
    exact absurd rfl hne
  · intro _ _ x xs hxr
    injection hxr with h1 _
    subst h1
    exact hpar
  · intro hfalse
    simp at hfalse

theorem goodName_append (a b : List Char) : goodName (a ++ b) = (goodName a && goodName b) := by
  simp [goodName, List.all_append]

theorem goodType_append (a b : List Char) : goodType (a ++ b) = (goodType a && goodType b) := by
  simp [goodType, List.all_append]

theorem validParam_parts (p : BmxCommandParam) (h : validParam p = true) :
    goodName p.name = true ∧ goodType p.type = true ∧ goodDefFrom false p.default = true := by
  simp only [validParam, Bool.and_eq_true] at h
  exact ⟨h.1.1, h.1.2, h.2⟩

theorem ppStepCore_inv (st : PPState) (c : Char) (h : PPInv st)
    (hcn : st.createNewParam = false) : PPInv (ppStepCore st c) := by
  rcases st with ⟨acc, cn, mode, q⟩
  simp only at hcn
  subst hcn
  cases acc with
  | nil => exact h
  | cons p rest =>
    have hvp := h.validAll p (List.mem_cons_self p rest)
    obtain ⟨hn, ht, hdd⟩ := validParam_parts p hvp
    have hvrest : ∀ x ∈ rest, validParam x = true := fun x hx =>
      h.validAll x (List.mem_cons_of_mem p hx)
    have hct : ∀ x ∈ rest, closedParam x = true := fun x hx => h.closedTail x hx
    cases mode with
    | name =>
      have hq0 : q = false := h.strFalse (by simp)
      subst hq0
      have hd : p.default = [] := h.headDef rfl (by simp) p rest rfl
      simp only [ppStepCore]
      split_ifs with h1 h2 h3 h4 h5 h6 h7 h8
      · exact PPInv.mkHead { p with type := [] } rest ParsePart.type (by simp)
          (by simp [validParam, hn, hdd, goodType]) hd hvrest hct
      · exact PPInv.mkDef p rest false hvp (by rw [hd]; rfl) hvrest hct
      · exact PPInv.mkComma p rest hvp (by simp [closedParam, hd, parAfter]) hvrest hct
      · exact PPInv.mkHead { p with type := "Int".data } rest ParsePart.type (by simp)
          (by simp [validParam, hn, hdd]; decide) hd hvrest hct
      · exact PPInv.mkHead { p with type := "Float".data } rest ParsePart.type (by simp)
          (by simp [validParam, hn, hdd]; decide) hd hvrest hct
      · exact PPInv.mkHead { p with type := "Double".data } rest ParsePart.type (by simp)
          (by simp [validParam, hn, hdd]; decide) hd hvrest hct
      · exact PPInv.mkHead { p with type := "String".data } rest ParsePart.type (by simp)
          (by simp [validParam, hn, hdd]; decide) hd hvrest hct
      · exact h
      · have hnb : nameBreak c = false := by
          simp [nameBreak, h1, h2, h3, h4, h5, h6, h7, h8]
        have hc1 : goodName [c] = true := by simp [goodName, hnb]
        exact PPInv.mkHead { p with name := p.name ++ [c] } rest ParsePart.name (by simp)
          (by simp [validParam, goodName_append, hn, hc1, ht, hdd]) hd hvrest hct
    | type =>
      have hq0 : q = false := h.strFalse (by simp)
      subst hq0
      have hd : p.default = [] := h.headDef rfl (by simp) p rest rfl
      simp only [ppStepCore]
      split_ifs with h1 h2 h3
      · exact PPInv.mkComma p rest hvp (by simp [closedParam, hd, parAfter]) hvrest hct
      · exact PPInv.mkDef p rest false hvp (by rw [hd]; rfl) hvrest hct
      · exact h
      · have htc : goodTypeChar c = true := by
          simp [goodTypeChar, h1, h2, h3]
        have htc1 : goodType [c] = true := by simp [goodType, htc]
        exact PPInv.mkHead { p with type := p.type ++ [c] } rest ParsePart.type (by simp)
          (by simp [validParam, goodType_append, hn, ht, htc1, hdd]) hd hvrest hct
    | default =>
      have hpar : parAfter false p.default = q := h.headPar rfl rfl p rest rfl
      cases q with
      | true =>
        by_cases hc : c = '"'
        · subst hc
          have heq : ppStepCore ⟨p :: rest, false, ParsePart.default, true⟩ '"' =
              ⟨{ p with default := p.default ++ ['"'] } :: rest, false,
                ParsePart.default, false⟩ := rfl
          rw [heq]
          refine PPInv.mkDef _ rest false ?_ ?_ hvrest hct
          · simp [validParam, hn, ht, goodDefFrom_snoc, hdd, hpar]
          · simp [parAfter_append, hpar, parAfter_one, quoteFlip]
        · have heq : ppStepCore ⟨p :: rest, false, ParsePart.default, true⟩ c =
              ⟨{ p with default := p.default ++ [c] } :: rest, false,
                ParsePart.default, true⟩ := by
            simp [ppStepCore, hc]
          rw [heq]
          refine PPInv.mkDef _ rest true ?_ ?_ hvrest hct
          · simp [validParam, hn, ht, goodDefFrom_snoc, hdd, hpar]
          · simp [parAfter_append, hpar, parAfter_one, quoteFlip, hc]
      | false =>
        by_cases h1 : c = ','
        · subst h1
          have heq : ppStepCore ⟨p :: rest, false, ParsePart.default, false⟩ ',' =
              ⟨p :: rest, true, ParsePart.name, false⟩ := rfl
          rw [heq]
          exact PPInv.mkComma p rest hvp (by simp [closedParam, hpar]) hvrest hct
        · by_cases h2 : c = ' '
          · subst h2
            have heq : ppStepCore ⟨p :: rest, false, ParsePart.default, false⟩ ' ' =
                ⟨p :: rest, false, ParsePart.default, false⟩ := rfl
            rw [heq]
            exact h
          · by_cases h3 : c = '"'
            · subst h3
              have heq : ppStepCore ⟨p :: rest, false, ParsePart.default, false⟩ '"' =
                  ⟨{ p with default := p.default ++ ['"'] } :: rest, false,
                    ParsePart.default, true⟩ := rfl
              rw [heq]
              refine PPInv.mkDef _ rest true ?_ ?_ hvrest hct
              · simp [validParam, hn, ht, goodDefFrom_snoc, hdd, hpar]
              · simp [parAfter_append, hpar, parAfter_one, quoteFlip]
            · have heq : ppStepCore ⟨p :: rest, false, ParsePart.default, false⟩ c =
                  ⟨{ p with default := p.default ++ [c] } :: rest, false,
                    ParsePart.default, false⟩ := by
                simp [ppStepCore, h1, h2, h3]
              rw [heq]
              refine PPInv.mkDef _ rest false ?_ ?_ hvrest hct
              · simp [validParam, hn, ht, goodDefFrom_snoc, hdd, hpar, h1, h2]
              · simp [parAfter_append, hpar, parAfter_one, quoteFlip, h3]

theorem ppStep_inv (st : PPState) (c : Char) (h : PPInv st) : PPInv (ppStep st c) :=
  ppStepCore_inv (maybePush st) c (maybePush_inv st h) (maybePush_createNew st)

theorem runFrom_inv (st : PPState) (cs : List Char) (h : PPInv st) : PPInv (runFrom st cs) := by
  induction cs generalizing st with
  | nil => exact h
  | cons c cs ih => exact ih (ppStep st c) (ppStep_inv st c h)

theorem runFrom_nil (st : PPState) : runFrom st [] = st := rfl

theorem runFrom_cons (st : PPState) (c : Char) (cs : List Char) :
    runFrom st (c :: cs) = runFrom (ppStep st c) cs := rfl

theorem runFrom_append (st : PPState) (a b : List Char) :
    runFrom st (a ++ b) = runFrom (runFrom st a) b := by
  simp [runFrom, List.foldl_append]

theorem ppStep_name_char (p : BmxCommandParam) (rest : List BmxCommandParam) (c : Char)
    (hc : nameBreak c = false) :
    ppStep ⟨p :: rest, false, ParsePart.name, false⟩ c =
      ⟨{ p with name := p.name ++ [c] } :: rest, false, ParsePart.name, false⟩ := by
  simp only [nameBreak, Bool.or_eq_false_iff, decide_eq_false_iff_not] at hc
  obtain ⟨⟨⟨⟨⟨⟨⟨h1, h2⟩, h3⟩, h4⟩, h5⟩, h6⟩, h7⟩, h8⟩ := hc
  simp [ppStep, maybePush, ppStepCore, h1, h2, h3, h4, h5, h6, h7, h8]

theorem ppStep_type_char (p : BmxCommandParam) (rest : List BmxCommandParam) (c : Char)
    (hc : goodTypeChar c = true) :
    ppStep ⟨p :: rest, false, ParsePart.type, false⟩ c =
      ⟨{ p with type := p.type ++ [c] } :: rest, false, ParsePart.type, false⟩ := by
  simp only [goodTypeChar, Bool.and_eq_true, Bool.not_eq_true', decide_eq_false_iff_not] at hc
  obtain ⟨⟨h1, h2⟩, h3⟩ := hc
  simp [ppStep, maybePush, ppStepCore, h1, h2, h3]

theorem ppStep_default_char (p : BmxCommandParam) (rest : List BmxCommandParam) (c : Char)
    (q : Bool) (h : q = true ∨ (¬(c = ',') ∧ ¬(c = ' '))) :
    ppStep ⟨p :: rest, false, ParsePart.default, q⟩ c =
      ⟨{ p with default := p.default ++ [c] } :: rest, false, ParsePart.default,
        quoteFlip q c⟩ := by
  cases q with
  | true =>
    by_cases hc : c = '"'
    · subst hc
      rfl
    · simp [ppStep, maybePush, ppStepCore, hc, quoteFlip]
  | false =>
    obtain ⟨h1, h2⟩ := h.resolve_left (by simp)
    by_cases hc : c = '"'
    · subst hc
      rfl
    · simp [ppStep, maybePush, ppStepCore, h1, h2, hc, quoteFlip]

theorem ppStep_colon (p : BmxCommandParam) (rest : List BmxCommandParam) :
    ppStep ⟨p :: rest, false, ParsePart.name, false⟩ ':' =
      ⟨{ p with type := [] } :: rest, false, ParsePart.type, false⟩ := rfl

theorem ppStep_eq_type (p : BmxCommandParam) (rest : List BmxCommandParam) :
    ppStep ⟨p :: rest, false, ParsePart.type, false⟩ '=' =
      ⟨p :: rest, false, ParsePart.default, false⟩ := rfl

theorem ppStep_space_type (p : BmxCommandParam) (rest : List BmxCommandParam) :
    ppStep ⟨p :: rest, false, ParsePart.type, false⟩ ' ' =
      ⟨p :: rest, false, ParsePart.type, false⟩ := rfl

theorem ppStep_space_default (p : BmxCommandParam) (rest : List BmxCommandParam) :
    ppStep ⟨p :: rest, false, ParsePart.default, false⟩ ' ' =
      ⟨p :: rest, false, ParsePart.default, false⟩ := rfl

theorem runFrom_name (n : List Char) (hn : goodName n = true) (p : BmxCommandParam)
    (rest : List BmxCommandParam) :
    runFrom ⟨p :: rest, false, ParsePart.name, false⟩ n =
      ⟨{ p with name := p.name ++ n } :: rest, false, ParsePart.name, false⟩ := by
  induction n generalizing p with
  | nil => rw [runFrom_nil, List.append_nil]
  | cons c n' ih =>
    simp only [goodName, List.all_cons, Bool.and_eq_true, Bool.not_eq_true'] at hn
    obtain ⟨hc, hn'⟩ := hn
    rw [runFrom_cons, ppStep_name_char p rest c hc, ih (by simpa [goodName] using hn')]
    simp

theorem runFrom_type (t : List Char) (ht : goodType t = true) (p : BmxCommandParam)
    (rest : List BmxCommandParam) :
    runFrom ⟨p :: rest, false, ParsePart.type, false⟩ t =
      ⟨{ p with type := p.type ++ t } :: rest, false, ParsePart.type, false⟩ := by
  induction t generalizing p with
  | nil => rw [runFrom_nil, List.append_nil]
  | cons c t' ih =>
    simp only [goodType, List.all_cons, Bool.and_eq_true] at ht
    obtain ⟨hc, ht'⟩ := ht
    rw [runFrom_cons, ppStep_type_char p rest c hc, ih (by simpa [goodType] using ht')]
    simp

theorem runFrom_default (d : List Char) (q : Bool) (hd : goodDefFrom q d = true)
    (p : BmxCommandParam) (rest : List BmxCommandParam) :
    runFrom ⟨p :: rest, false, ParsePart.default, q⟩ d =
      ⟨{ p with default := p.default ++ d } :: rest, false, ParsePart.default,
        parAfter q d⟩ := by
  induction d generalizing q p with
  | nil =>
    rw [runFrom_nil, List.append_nil]
    rfl
  | cons c d' ih =>
    simp only [goodDefFrom, Bool.and_eq_true] at hd
    obtain ⟨hc, hd'⟩ := hd
    have hc' : q = true ∨ (¬(c = ',') ∧ ¬(c = ' ')) := by
      rcases Bool.or_eq_true_iff.mp hc with h | h
      · exact Or.inl h
      · simp only [Bool.and_eq_true, Bool.not_eq_true', decide_eq_false_iff_not] at h
        exact Or.inr h
    rw [runFrom_cons, ppStep_default_char p rest c q hc', ih (quoteFlip q c) hd']
    have hpa : parAfter q (c :: d') = parAfter (quoteFlip q c) d' := rfl
    rw [hpa]
    simp

theorem runSep (p : BmxCommandParam) (acc : List BmxCommandParam) (mode : ParsePart)
    (hm : mode = ParsePart.type ∨ mode = ParsePart.default) :
    runFrom ⟨p :: acc, false, mode, false⟩ [',', ' '] =
      ⟨freshParam :: p :: acc, false, ParsePart.name, false⟩ := by
  rcases hm with rfl | rfl
  · rfl
  · rfl

theorem runChunk (p : BmxCommandParam) (acc : List BmxCommandParam)
    (hv : validParam p = true) :
    runFrom ⟨freshParam :: acc, false, ParsePart.name, false⟩ (prettyParam p) =
      ⟨p :: acc, false,
        if p.default.isEmpty then ParsePart.type else ParsePart.default,
        parAfter false p.default⟩ := by
  obtain ⟨pn, pt, pd⟩ := p
  obtain ⟨hn, ht, hdd⟩ := validParam_parts _ hv
  simp only at hn ht hdd
  by_cases hde : pd.isEmpty
  · have hdnil : pd = [] := by simpa using hde
    subst hdnil
    rw [prettyParam]
    simp only [List.isEmpty_nil, if_true, List.append_nil]
    rw [show (pn ++ ':' :: pt : List Char) = pn ++ ([':'] ++ pt) from by simp]
    rw [runFrom_append, runFrom_name pn hn, runFrom_append]
    rw [runFrom_cons, ppStep_colon, runFrom_nil]
    rw [runFrom_type pt ht]
    simp [freshParam, parAfter]
  · have hde' : pd.isEmpty = false := by simpa using hde
    rw [prettyParam]
    simp only [hde', if_false, Bool.false_eq_true]
    rw [show (pn ++ ':' :: pt ++ ' ' :: '=' :: ' ' :: pd : List Char) =
        pn ++ ([':'] ++ (pt ++ ([' '] ++ (['='] ++ ([' '] ++ pd))))) from by simp]
    rw [runFrom_append, runFrom_name pn hn, runFrom_append]
    rw [runFrom_cons, ppStep_colon, runFrom_nil]
    rw [runFrom_append, runFrom_type pt ht]
    rw [runFrom_append, runFrom_cons, ppStep_space_type, runFrom_nil]
    rw [runFrom_append, runFrom_cons, ppStep_eq_type, runFrom_nil]
    rw [runFrom_append, runFrom_cons, ppStep_space_default, runFrom_nil]
    rw [runFrom_default pd false hdd]
    simp [freshParam]

theorem runPretty : ∀ (ps : List BmxCommandParam), ∀ (acc : List BmxCommandParam),
    ps ≠ [] → (∀ p ∈ ps, validParam p = true) → (∀ p ∈ ps.dropLast, closedParam p = true) →
    runFrom ⟨freshParam :: acc, false, ParsePart.name, false⟩ (prettyOf ps) =
      ⟨ps.reverse ++ acc, false,
        if (ps.getLast?.getD freshParam).default.isEmpty then ParsePart.type
          else ParsePart.default,
        parAfter false (ps.getLast?.getD freshParam).default⟩ := by
  intro ps
  induction ps with
  | nil =>
    intro acc hne _ _
    exact absurd rfl hne
  | cons p rest ih =>
    intro acc hne hv hcl
    cases rest with
    | nil =>
      rw [show prettyOf [p] = prettyParam p from rfl, runChunk p acc (hv p (by simp))]
      simp [List.getLast?]
    | cons q rest' =>
      rw [show prettyOf (p :: q :: rest') =
          prettyParam p ++ ([',', ' '] ++ prettyOf (q :: rest')) from by simp [prettyOf]]
      rw [runFrom_append, runChunk p acc (hv p (by simp)), runFrom_append]
      have hcp : closedParam p = true := by
        apply hcl p
        rw [show (p :: q :: rest').dropLast = p :: (q :: rest').dropLast from rfl]
        exact List.mem_cons_self _ _
      have hpar0 : parAfter false p.default = false := by
        simpa [closedParam] using hcp
      rw [hpar0, runSep p acc _ (by split_ifs with hh; exacts [Or.inl rfl, Or.inr rfl])]
      rw [ih (p :: acc) (by simp) (fun x hx => hv x (List.mem_cons_of_mem p hx))
        (fun x hx => hcl x (by
          rw [show (p :: q :: rest').dropLast = p :: (q :: rest').dropLast from rfl]
          exact List.mem_cons_of_mem p hx))]
      have hlast : (p :: q :: rest').getLast? = (q :: rest').getLast? := by
        simp [List.getLast?_cons_cons]
      rw [hlast]
      simp

theorem trimChars_eq_dropTrail (l : List Char) :
    trimChars l = dropTrailWS (l.dropWhile isWS) := rfl

theorem dropWhile_append_cons (p : Char → Bool) (a b : List Char) (c : Char)
    (hc : p c = false) :
    (a ++ c :: b).dropWhile p = a.dropWhile p ++ c :: b := by
  induction a with
  | nil => simp [List.dropWhile_cons, hc]
  | cons x xs ih =>
    by_cases hx : p x
    · simp [List.dropWhile_cons, hx, ih]
    · simp [List.dropWhile_cons, hx]

theorem dropWhile_append_all (p : Char → Bool) (a b : List Char)
    (ha : ∀ x ∈ a, p x = true) :
    (a ++ b).dropWhile p = b.dropWhile p := by
  induction a with
  | nil => rfl
  | cons x xs ih =>
    simp [List.dropWhile_cons, ha x (List.mem_cons_self x xs),
      ih (fun y hy => ha y (List.mem_cons_of_mem x hy))]

theorem dropWhile_append_of_ne (p : Char → Bool) (a b : List Char)
    (ha : a.dropWhile p ≠ []) :
    (a ++ b).dropWhile p = a.dropWhile p ++ b := by
  induction a with
  | nil => exact absurd rfl ha
  | cons x xs ih =>
    by_cases hx : p x
    · have ha' : xs.dropWhile p ≠ [] := by
        rw [List.dropWhile_cons, if_pos hx] at ha
        exact ha
      rw [List.cons_append, List.dropWhile_cons, if_pos hx, List.dropWhile_cons, if_pos hx,
        ih ha']
    · rw [List.cons_append, List.dropWhile_cons, if_neg hx, List.dropWhile_cons, if_neg hx]
      simp

theorem exists_dropTrail (l : List Char) :
    ∃ w, l = dropTrailWS l ++ w ∧ ∀ c ∈ w, isWS c = true := by
  refine ⟨(l.reverse.takeWhile isWS).reverse, ?_, ?_⟩
  · have h := List.takeWhile_append_dropWhile (p := isWS) (l := l.reverse)
    have h2 : l.reverse.reverse =
        (l.reverse.takeWhile isWS ++ l.reverse.dropWhile isWS).reverse := by rw [h]
    rw [List.reverse_reverse, List.reverse_append] at h2
    exact h2
  · intro c hc
    rw [List.mem_reverse] at hc
    exact List.mem_takeWhile_imp hc

theorem dropTrailWS_append (a b : List Char) (hb : ∃ c ∈ b, isWS c = false) :
    dropTrailWS (a ++ b) = a ++ dropTrailWS b := by
  obtain ⟨c, hcb, hc⟩ := hb
  have hne : b.reverse.dropWhile isWS ≠ [] := by
    rw [Ne, List.dropWhile_eq_nil_iff]
    push_neg
    exact ⟨c, List.mem_reverse.mpr hcb, by simp [hc]⟩
  rw [dropTrailWS, List.reverse_append, dropWhile_append_of_ne _ _ _ hne,
    List.reverse_append, List.reverse_reverse]
  rfl

theorem dropTrailWS_append_allws (a w : List Char) (hw : ∀ c ∈ w, isWS c = true) :
    dropTrailWS (a ++ w) = dropTrailWS a := by
  rw [dropTrailWS, List.reverse_append,
    dropWhile_append_all _ _ _ (fun x hx => hw x (List.mem_reverse.mp hx))]
  rfl

theorem dropTrailWS_concat_nonws (a : List Char) (c : Char) (hc : isWS c = false) :
    dropTrailWS (a ++ [c]) = a ++ [c] := by
  rw [dropTrailWS, List.reverse_append]
  simp [List.dropWhile_cons, hc]

theorem stripWS_append (a b : List Char) : stripWS (a ++ b) = stripWS a ++ stripWS b := by
  simp [stripWS, List.filter_append]

theorem stripWS_allws (w : List Char) (hw : ∀ c ∈ w, isWS c = true) : stripWS w = [] := by
  rw [stripWS, List.filter_eq_nil_iff]
  intro c hc
  simp [hw c hc]

theorem stripWS_dropTrail (l : List Char) : stripWS (dropTrailWS l) = stripWS l := by
  obtain ⟨w, hw, hws⟩ := exists_dropTrail l
  conv_rhs => rw [hw]
  rw [stripWS_append, stripWS_allws w hws, List.append_nil]

theorem stripWS_dropLead (l : List Char) : stripWS (l.dropWhile isWS) = stripWS l := by
  conv_rhs => rw [← List.takeWhile_append_dropWhile (p := isWS) (l := l)]
  rw [stripWS_append, stripWS_allws _ (fun c hc => List.mem_takeWhile_imp hc),
    List.nil_append]

theorem stripWS_trimChars (l : List Char) : stripWS (trimChars l) = stripWS l := by
  rw [trimChars_eq_dropTrail, stripWS_dropTrail, stripWS_dropLead]

theorem goodName_dropLead (n : List Char) (hn : goodName n = true) :
    goodName (n.dropWhile isWS) = true := by
  conv at hn => rw [← List.takeWhile_append_dropWhile (p := isWS) (l := n)]
  rw [goodName_append, Bool.and_eq_true] at hn
  exact hn.2

theorem goodType_dropTrail (t : List Char) (ht : goodType t = true) :
    goodType (dropTrailWS t) = true := by
  obtain ⟨w, hw, -⟩ := exists_dropTrail t
  conv at ht => rw [hw]
  rw [goodType_append, Bool.and_eq_true] at ht
  exact ht.1

theorem goodDefFrom_dropTrail (d : List Char) (hd : goodDefFrom false d = true) :
    goodDefFrom false (dropTrailWS d) = true := by
  obtain ⟨w, hw, -⟩ := exists_dropTrail d
  conv at hd => rw [hw]
  exact goodDefFrom_append_left false _ w hd

theorem prettyOf_cons (p : BmxCommandParam) (rest : List BmxCommandParam) :
    prettyOf (p :: rest) =
      p.name ++ ':' :: (p.type ++
        ((if p.default.isEmpty then [] else ' ' :: '=' :: ' ' :: p.default) ++
          (if rest.isEmpty then [] else ',' :: ' ' :: prettyOf rest))) := by
  cases rest with
  | nil => simp [prettyOf, prettyParam]
  | cons q rest' => simp [prettyOf, prettyParam]

theorem prettyOf_append (xs ys : List BmxCommandParam) (hxs : xs ≠ []) (hys : ys ≠ []) :
    prettyOf (xs ++ ys) = prettyOf xs ++ ',' :: ' ' :: prettyOf ys := by
  induction xs with
  | nil => exact absurd rfl hxs
  | cons x xs' ih =>
    cases xs' with
    | nil =>
      cases ys with
      | nil => exact absurd rfl hys
      | cons y ys' => rfl
    | cons x2 xs'' =>
      have h1 : prettyOf (x :: ((x2 :: xs'') ++ ys)) =
          prettyParam x ++ ',' :: ' ' :: prettyOf ((x2 :: xs'') ++ ys) := by
        rw [List.cons_append]
        rfl
      rw [List.cons_append, h1, ih (by simp) ]
      rw [show prettyOf (x :: x2 :: xs'') =
        prettyParam x ++ ',' :: ' ' :: prettyOf (x2 :: xs'') from rfl]
      simp

theorem dropLead_pretty (p : BmxCommandParam) (rest : List BmxCommandParam) :
    (prettyOf (p :: rest)).dropWhile isWS =
      prettyOf ({ p with name := p.name.dropWhile isWS } :: rest) := by
  rw [prettyOf_cons, prettyOf_cons, dropWhile_append_cons isWS _ _ ':' (by decide)]

theorem ppStepCore_ne (st : PPState) (c : Char) (h : st.revAcc ≠ []) :
    (ppStepCore st c).revAcc ≠ [] := by
  rcases st with ⟨acc, cn, mode, q⟩
  cases acc with
  | nil => exact absurd rfl h
  | cons p rest =>
    cases mode
    case name =>
      simp only [ppStepCore]
      split_ifs <;> simp
    case type =>
      simp only [ppStepCore]
      split_ifs <;> simp
    case default =>
      simp only [ppStepCore]
      split_ifs <;> simp

theorem maybePush_ne (st : PPState) (h : PPInv st) : (maybePush st).revAcc ≠ [] := by
  rcases st with ⟨acc, cn, mode, q⟩
  cases cn
  · intro hnil
    have hacc : acc = [] := by
      simpa [maybePush] using hnil
    have := h.neNew hacc
    simp at this
  · simp [maybePush]

theorem runFrom_ne_of_ne (st : PPState) (cs : List Char) (h : st.revAcc ≠ []) :
    (runFrom st cs).revAcc ≠ [] := by
  induction cs generalizing st with
  | nil => exact h
  | cons c cs' ih =>
    rw [runFrom_cons]
    apply ih
    apply ppStepCore_ne
    rcases st with ⟨acc, cn, mode, q⟩
    cases cn
    · simpa [maybePush] using h
    · simp [maybePush]

theorem runFrom_ne (st : PPState) (cs : List Char) (h : PPInv st) (hcs : cs ≠ []) :
    (runFrom st cs).revAcc ≠ [] := by
  cases cs with
  | nil => exact absurd rfl hcs
  | cons c cs' =>
    rw [runFrom_cons]
    exact runFrom_ne_of_ne _ _ (ppStepCore_ne _ _ (maybePush_ne st h))

theorem runFrom_ppInit (cs : List Char) (h : cs ≠ []) :
    runFrom ppInit cs = runFrom ⟨[freshParam], false, ParsePart.name, false⟩ cs := by
  cases cs with
  | nil => exact absurd rfl h
  | cons c cs' => rfl

theorem runLastChunk (p : BmxCommandParam) (acc : List BmxCommandParam)
    (hv : validParam p = true) :
    ∃ pe st, runFrom ⟨freshParam :: acc, false, ParsePart.name, false⟩
        (dropTrailWS (prettyParam p)) = st ∧ st.revAcc = pe :: acc ∧
      normParam pe = normParam p := by
  obtain ⟨pn, pt, pd⟩ := p
  obtain ⟨hn, ht, hdd⟩ := validParam_parts _ hv
  simp only at hn ht hdd
  by_cases hde : pd.isEmpty
  · have hdnil : pd = [] := by simpa using hde
    subst hdnil
    rw [prettyParam]
    simp only [List.isEmpty_nil, if_true, List.append_nil]
    by_cases htw : ∃ c ∈ pt, isWS c = false
    · rw [show (pn ++ ':' :: pt : List Char) = (pn ++ [':']) ++ pt from by simp,
        dropTrailWS_append (pn ++ [':']) pt htw,
        show ((pn ++ [':']) ++ dropTrailWS pt : List Char) =
          pn ++ ([':'] ++ dropTrailWS pt) from by simp,
        runFrom_append, runFrom_name pn hn, runFrom_append, runFrom_cons, ppStep_colon,
        runFrom_nil, runFrom_type _ (goodType_dropTrail pt ht)]
      refine ⟨_, _, rfl, rfl, ?_⟩
      simp [normParam, freshParam, stripWS_dropTrail]
    · have hallws : ∀ c ∈ pt, isWS c = true := by
        intro c hc
        rcases Bool.eq_false_or_eq_true (isWS c) with ht2 | hf
        · exact ht2
        · exact absurd ⟨c, hc, hf⟩ htw
      rw [show (pn ++ ':' :: pt : List Char) = (pn ++ [':']) ++ pt from by simp,
        dropTrailWS_append_allws (pn ++ [':']) pt hallws, dropTrailWS_concat_nonws pn ':' (by decide),
        runFrom_append, runFrom_name pn hn, runFrom_cons, ppStep_colon, runFrom_nil]
      refine ⟨_, _, rfl, rfl, ?_⟩
      have hsw : stripWS pt = [] := stripWS_allws pt hallws
      simp only [normParam, freshParam, List.nil_append, hsw]
      rfl
  · have hde' : pd.isEmpty = false := by simpa using hde
    rw [prettyParam]
    simp only [hde', if_false, Bool.false_eq_true]
    by_cases hdw : ∃ c ∈ pd, isWS c = false
    · rw [show (pn ++ ':' :: pt ++ ' ' :: '=' :: ' ' :: pd : List Char) =
          (pn ++ [':'] ++ pt ++ [' ', '=', ' ']) ++ pd from by simp,
        dropTrailWS_append (pn ++ [':'] ++ pt ++ [' ', '=', ' ']) pd hdw,
        show ((pn ++ [':'] ++ pt ++ [' ', '=', ' ']) ++ dropTrailWS pd : List Char) =
          pn ++ ([':'] ++ (pt ++ ([' '] ++ (['='] ++ ([' '] ++ dropTrailWS pd))))) from by simp,
        runFrom_append, runFrom_name pn hn, runFrom_append, runFrom_cons, ppStep_colon,
        runFrom_nil, runFrom_append, runFrom_type pt ht,
        runFrom_append, runFrom_cons, ppStep_space_type, runFrom_nil,
        runFrom_append, runFrom_cons, ppStep_eq_type, runFrom_nil,
        runFrom_append, runFrom_cons, ppStep_space_default, runFrom_nil,
        runFrom_default _ false (goodDefFrom_dropTrail pd hdd)]
      refine ⟨_, _, rfl, rfl, ?_⟩
      simp [normParam, freshParam, stripWS_dropTrail]
    · have hallws : ∀ c ∈ pd, isWS c = true := by
        intro c hc
        rcases Bool.eq_false_or_eq_true (isWS c) with ht2 | hf
        · exact ht2
        · exact absurd ⟨c, hc, hf⟩ hdw
      have hallws2 : ∀ c ∈ (' ' :: pd : List Char), isWS c = true := by
        intro c hc
        rcases List.mem_cons.mp hc with rfl | hc
        · rfl
        · exact hallws c hc
      rw [show (pn ++ ':' :: pt ++ ' ' :: '=' :: ' ' :: pd : List Char) =
          ((pn ++ [':'] ++ pt ++ [' ']) ++ ['=']) ++ (' ' :: pd) from by simp,
        dropTrailWS_append_allws ((pn ++ [':'] ++ pt ++ [' ']) ++ ['=']) (' ' :: pd) hallws2,
        dropTrailWS_concat_nonws (pn ++ [':'] ++ pt ++ [' ']) '=' (by decide),
        show ((pn ++ [':'] ++ pt ++ [' ']) ++ ['='] : List Char) =
          pn ++ ([':'] ++ (pt ++ ([' '] ++ (['='] ++ ([] : List Char))))) from by simp,
        runFrom_append, runFrom_name pn hn, runFrom_append, runFrom_cons, ppStep_colon,
        runFrom_nil, runFrom_append, runFrom_type pt ht,
        runFrom_append, runFrom_cons, ppStep_space_type, runFrom_nil,
        runFrom_append, runFrom_cons, ppStep_eq_type, runFrom_nil, runFrom_nil]
      refine ⟨_, _, rfl, rfl, ?_⟩
      have hsw : stripWS pd = [] := stripWS_allws pd hallws
      simp only [normParam, freshParam, List.nil_append, hsw]
      rfl

theorem reverse_dropLast (l : List BmxCommandParam) : l.reverse.dropLast = l.tail.reverse := by
  cases l with
  | nil => rfl
  | cons x xs => simp [List.reverse_cons, List.dropLast_concat]

theorem stripWS_ne_nil_of_mem (l : List Char) (c : Char) (hc : c ∈ l) (hws : isWS c = false) :
    stripWS l ≠ [] := by
  intro hnil
  have hmem : c ∈ stripWS l := List.mem_filter.mpr ⟨hc, by simp [hws]⟩
  rw [hnil] at hmem
  exact absurd hmem (List.not_mem_nil c)

theorem colon_mem_prettyParam (p : BmxCommandParam) : ':' ∈ prettyParam p := by
  rw [prettyParam]
  simp

theorem colon_mem_prettyOf (p : BmxCommandParam) (rest : List BmxCommandParam) :
    ':' ∈ prettyOf (p :: rest) := by
  rw [prettyOf_cons]
  simp

theorem prettyOf_ne_nil (p : BmxCommandParam) (rest : List BmxCommandParam) :
    prettyOf (p :: rest) ≠ [] := by
  intro h
  have hmem := colon_mem_prettyOf p rest
  rw [h] at hmem
  exact absurd hmem (List.not_mem_nil _)

theorem prettyParam_has_nonws (p : BmxCommandParam) :
    ∃ c ∈ prettyParam p, isWS c = false :=
  ⟨':', colon_mem_prettyParam p, by decide⟩

theorem trimChars_pretty_ne_nil (p : BmxCommandParam) (rest : List BmxCommandParam) :
    trimChars (prettyOf (p :: rest)) ≠ [] := by
  intro h
  have h2 := stripWS_trimChars (prettyOf (p :: rest))
  rw [h] at h2
  simp only [stripWS, List.filter_nil] at h2
  exact stripWS_ne_nil_of_mem _ ':' (colon_mem_prettyOf p rest) (by decide) h2.symm

theorem validParam_dropLeadName (p : BmxCommandParam) (hv : validParam p = true) :
    validParam { p with name := p.name.dropWhile isWS } = true := by
  obtain ⟨hn, ht, hd⟩ := validParam_parts p hv
  simp [validParam, goodName_dropLead _ hn, ht, hd]

theorem normParam_dropLeadName (p : BmxCommandParam) :
    normParam { p with name := p.name.dropWhile isWS } = normParam p := by
  simp [normParam, stripWS_dropLead]

theorem subParse_eq_of (raw : List Char) (h1 : raw.isEmpty = false)
    (h2 : (trimChars raw).isEmpty = false) :
    subParse raw = some (parseCommandParamsRaw (trimChars raw)) := by
  simp [subParse, h1, h2]

theorem subParse_some_elim (raw : List Char) (ps : List BmxCommandParam)
    (h : subParse raw = some ps) :
    trimChars raw ≠ [] ∧ ps = parseCommandParamsRaw (trimChars raw) := by
  simp only [subParse] at h
  split at h
  · exact absurd h (by simp)
  · split at h
    · exact absurd h (by simp)
    · rw [Option.some.injEq] at h
      refine ⟨?_, h.symm⟩
      intro hnil
      rename_i hni
      rw [hnil] at hni
      exact hni rfl

theorem parseRaw_facts (t : List Char) (ht : t ≠ []) :
    parseCommandParamsRaw t ≠ [] ∧
      (∀ p ∈ parseCommandParamsRaw t, validParam p = true) ∧
      (∀ p ∈ (parseCommandParamsRaw t).dropLast, closedParam p = true) := by
  have hinv := runFrom_inv ppInit t ppInit_inv
  have hne := runFrom_ne ppInit t ppInit_inv ht
  refine ⟨?_, ?_, ?_⟩
  · rw [parseCommandParamsRaw, Ne, List.reverse_eq_nil_iff]
    exact hne
  · intro p hp
    exact hinv.validAll p (List.mem_reverse.mp hp)
  · intro p hp
    rw [parseCommandParamsRaw, reverse_dropLast] at hp
    exact hinv.closedTail p (List.mem_reverse.mp hp)

theorem normParam_dropLeadName2 (p : BmxCommandParam) :
    normParam (dropLeadName p) = normParam p := normParam_dropLeadName p

theorem dropTrail_pretty_ne_nil (p : BmxCommandParam) (rest : List BmxCommandParam) :
    dropTrailWS (prettyOf (p :: rest)) ≠ [] := by
  intro h
  have h2 := stripWS_dropTrail (prettyOf (p :: rest))
  rw [h] at h2
  simp only [stripWS, List.filter_nil] at h2
  exact stripWS_ne_nil_of_mem _ ':' (colon_mem_prettyOf p rest) (by decide) h2.symm

theorem parse_trim_pretty (q : BmxCommandParam) (rest : List BmxCommandParam)
    (hv₁ : ∀ p ∈ q :: rest, validParam p = true)
    (hcl₁ : ∀ p ∈ (q :: rest).dropLast, closedParam p = true) :
    (parseCommandParamsRaw (dropTrailWS (prettyOf (q :: rest)))).map normParam =
      (q :: rest).map normParam := by
  rcases List.eq_nil_or_concat rest with rfl | ⟨r', pLast, rfl⟩
  · -- a single parameter
    obtain ⟨pe, stF, heq, hrevacc, hnorm⟩ := runLastChunk q [] (hv₁ q (by simp))
    rw [parseCommandParamsRaw,
      runFrom_ppInit _ (dropTrail_pretty_ne_nil q []),
      show prettyOf [q] = prettyParam q from rfl, heq, hrevacc]
    simp [hnorm]
  · -- at least two parameters: q :: r' ++ [pLast]
    rw [List.concat_eq_append] at hv₁ hcl₁ ⊢
    have hfrontv : ∀ p ∈ q :: r', validParam p = true := by
      intro p hp
      apply hv₁
      rw [show (q :: (r' ++ [pLast]) : List BmxCommandParam) = (q :: r') ++ [pLast] from by simp]
      exact List.mem_append_left _ hp
    have hfrontcl : ∀ p ∈ q :: r', closedParam p = true := by
      intro p hp
      apply hcl₁
      rw [show (q :: (r' ++ [pLast]) : List BmxCommandParam) = (q :: r') ++ [pLast] from by simp,
        List.dropLast_concat]
      exact hp
    have hvL : validParam pLast = true := by
      apply hv₁
      rw [show (q :: (r' ++ [pLast]) : List BmxCommandParam) = (q :: r') ++ [pLast] from by simp]
      exact List.mem_append_right _ (by simp)
    -- the rendered string splits into the front chunks and the last chunk
    have hsplit : prettyOf (q :: (r' ++ [pLast])) =
        (prettyOf (q :: r') ++ [',', ' ']) ++ prettyParam pLast := by
      rw [show (q :: (r' ++ [pLast]) : List BmxCommandParam) = (q :: r') ++ [pLast] from by simp,
        prettyOf_append (q :: r') [pLast] (by simp) (by simp)]
      simp [prettyOf]
    have hdrop : dropTrailWS (prettyOf (q :: (r' ++ [pLast]))) =
        (prettyOf (q :: r') ++ [',', ' ']) ++ dropTrailWS (prettyParam pLast) := by
      rw [hsplit, dropTrailWS_append (prettyOf (q :: r') ++ [',', ' ']) (prettyParam pLast)
        (prettyParam_has_nonws pLast)]
    -- run the machine over the three pieces
    have hrun := runPretty (q :: r') [] (by simp) hfrontv
      (fun p hp => hfrontcl p ((List.dropLast_sublist (q :: r')).subset hp))
    obtain ⟨f0, fs, hfr⟩ : ∃ f0 fs, (q :: r').reverse = f0 :: fs := by
      cases hh : (q :: r').reverse with
      | nil =>
        rw [List.reverse_eq_nil_iff] at hh
        exact absurd hh (by simp)
      | cons a b => exact ⟨a, b, rfl⟩
    have hlastmem : (q :: r').getLast?.getD freshParam ∈ q :: r' := by
      rw [List.getLast?_eq_getLast (q :: r') (by simp)]
      exact List.getLast_mem (by simp)
    have hparF : parAfter false ((q :: r').getLast?.getD freshParam).default = false := by
      have h2 := hfrontcl _ hlastmem
      simpa [closedParam] using h2
    obtain ⟨pe, stF, heq, hrevacc, hnorm⟩ :=
      runLastChunk pLast ((q :: r').reverse) (hvL)
    rw [parseCommandParamsRaw, hdrop,
      runFrom_ppInit _ (by
        rw [← hdrop]
        exact dropTrail_pretty_ne_nil q (r' ++ [pLast])),
      runFrom_append, runFrom_append, hrun, List.append_nil, hparF, hfr,
      runSep f0 fs _ (by split_ifs; exacts [Or.inl rfl, Or.inr rfl]),
      ← hfr, heq, hrevacc]
    simp [hnorm]

/-- C8: feeding a record's rendered `paramsPretty` back through the parameter
sub-parser reproduces an equivalent parameter sequence: same length and the
same name, type and default at every position up to whitespace
normalisation (exact equality can fail only on whitespace, e.g. a type with
a trailing tab is re-trimmed). -/
theorem paramsPretty_roundtrip (raw : List Char) (ps : List BmxCommandParam)
    (h : subParse raw = some ps) :
    ∃ ps', subParse (prettyOf ps) = some ps' ∧ ps'.map normParam = ps.map normParam := by
  obtain ⟨htne, hps⟩ := subParse_some_elim raw ps h
  obtain ⟨hne, hv, hcl⟩ := parseRaw_facts (trimChars raw) htne
  rw [← hps] at hne hv hcl
  obtain ⟨p₀, rest, rfl⟩ : ∃ p₀ rest, ps = p₀ :: rest := by
    cases ps with
    | nil => exact absurd rfl hne
    | cons a b => exact ⟨a, b, rfl⟩
  have hg1 : (prettyOf (p₀ :: rest)).isEmpty = false := by
    cases hpe : prettyOf (p₀ :: rest) with
    | nil => exact absurd hpe (prettyOf_ne_nil p₀ rest)
    | cons a b => rfl
  have hg2 : (trimChars (prettyOf (p₀ :: rest))).isEmpty = false := by
    cases hpe : trimChars (prettyOf (p₀ :: rest)) with
    | nil => exact absurd hpe (trimChars_pretty_ne_nil p₀ rest)
    | cons a b => rfl
  refine ⟨parseCommandParamsRaw (trimChars (prettyOf (p₀ :: rest))),
    subParse_eq_of _ hg1 hg2, ?_⟩
  have htrim : trimChars (prettyOf (p₀ :: rest)) =
      dropTrailWS (prettyOf (dropLeadName p₀ :: rest)) := by
    rw [trimChars_eq_dropTrail]
    rw [show (prettyOf (p₀ :: rest)).dropWhile isWS =
      prettyOf (dropLeadName p₀ :: rest) from dropLead_pretty p₀ rest]
  have hv₁ : ∀ p ∈ dropLeadName p₀ :: rest, validParam p = true := by
    intro p hp
    rcases List.mem_cons.mp hp with rfl | hp
    · exact validParam_dropLeadName p₀ (hv p₀ (by simp))
    · exact hv p (List.mem_cons_of_mem _ hp)
  have hcl₁ : ∀ p ∈ (dropLeadName p₀ :: rest).dropLast, closedParam p = true := by
    cases rest with
    | nil =>
      intro p hp
      simp at hp
    | cons qq rr =>
      intro p hp
      rw [show (dropLeadName p₀ :: qq :: rr).dropLast =
        dropLeadName p₀ :: (qq :: rr).dropLast from rfl] at hp
      rcases List.mem_cons.mp hp with rfl | hp
      · have h2 : closedParam p₀ = true := by
          apply hcl
          rw [show (p₀ :: qq :: rr).dropLast = p₀ :: (qq :: rr).dropLast from rfl]
          exact List.mem_cons_self _ _
        exact h2
      · apply hcl
        rw [show (p₀ :: qq :: rr).dropLast = p₀ :: (qq :: rr).dropLast from rfl]
        exact List.mem_cons_of_mem _ hp
  rw [htrim, parse_trim_pretty (dropLeadName p₀) rest hv₁ hcl₁]
  simp [normParam_dropLeadName2]


/-- C8 witness. -/
theorem paramsPretty_roundtrip_witness :
    ∃ ps', subParse (prettyOf [(⟨"a".data, "Int".data, []⟩ : BmxCommandParam)]) = some ps' ∧
      ps'.map normParam = [(⟨"a".data, "Int".data, []⟩ : BmxCommandParam)].map normParam :=
  paramsPretty_roundtrip "a:Int".data [⟨"a".data, "Int".data, []⟩] (by decide)
